import Mathlib

set_option linter.unusedVariables false

/-!
Shallow embedding of the retrieval-fusion and caching subsystem of the
pdf-rag-system repository: the query expansion, ensemble weighted-union
fusion and multi-query set-union fusion of src/advanced_retrieval.py, the
query cache of src/cache_manager.py, and the cache-hit branch of
src/cli.py.  Python floats are modelled as exact rationals, Python dicts
(which preserve insertion order) as insertion-ordered association lists,
and fallible I/O as explicit boolean outcome flags together with Except
result types.
-/

/-- A langchain Document as the code uses it: page_content plus a
string-keyed metadata mapping. -/
structure Document where
  page_content : String
  metadata : List (String × String)
deriving DecidableEq

/-- Lookup with default, modelling metadata.get(key, dflt) on a dict. -/
def metadataGet : List (String × String) → String → String → String
  | [], _, dflt => dflt
  | e :: m, key, dflt => if e.1 = key then e.2 else metadataGet m key dflt

/-- The composite key of advanced_retrieval.py lines 175 and 235: the
f-string joining page_content, metadata.get("source", "") and
metadata.get("page", "") with the separator character of an underscore. -/
def docKey (d : Document) : String :=
  d.page_content ++ "_" ++ metadataGet d.metadata "source" "" ++ "_"
    ++ metadataGet d.metadata "page" ""

/-- The (content, metadata.source, metadata.page) triple that the spec calls
the composite key; missing fields default to the empty string exactly as
metadata.get(..., "") does. -/
def docTriple (d : Document) : String × String × String :=
  (d.page_content, metadataGet d.metadata "source" "",
    metadataGet d.metadata "page" "")

/-- Lookup in an insertion-ordered association list, modelling Python dict
access: the value stored under the key, none when the key is absent. -/
def assocFind : List (String × β) → String → Option β
  | [], _ => none
  | e :: m, k => if e.1 = k then some e.2 else assocFind m k

/-- Python dict assignment: update in place when the key exists, keeping its
position, otherwise append at the end (dicts preserve insertion order). -/
def assocSet (m : List (String × β)) (k : String) (v : β) : List (String × β) :=
  if k ∈ m.map Prod.fst then
    m.map fun e => if e.1 = k then (k, v) else e
  else m ++ [(k, v)]

/-- Character-wise model of the Python str.split call with a single newline
separator: between consecutive newlines the segment is empty, and the
empty string splits to one empty segment. -/
def splitNlChars : List Char → List (List Char)
  | [] => [[]]
  | c :: cs =>
    match splitNlChars cs with
    | [] => [[]]
    | l :: ls => if c = '\n' then [] :: l :: ls else (c :: l) :: ls

/-- Python str.split on the newline separator, lifted to String. -/
def pySplitNl (s : String) : List String :=
  (splitNlChars s.toList).map fun l => String.mk l

/-- Python str.strip with no arguments: drop whitespace characters from
both ends (the ASCII whitespace cases of the Python definition). -/
def pyStrip (s : String) : String :=
  String.mk
    (((s.toList.dropWhile Char.isWhitespace).reverse.dropWhile
      Char.isWhitespace).reverse)

/-- QueryTransformer.generate_multi_queries (advanced_retrieval.py lines
97-123) as a function of the original query and of the text returned by
the completion capability: split the response on newlines, strip each
line, drop lines that are blank after stripping, and prepend the original
query unchanged. -/
def generate_multi_queries (query llmResult : String) : List String :=
  let queries :=
    ((pySplitNl llmResult).map pyStrip).filter fun q => decide (q ≠ "")
  query :: queries

/-- One iteration of the inner loop of
EnsembleRetriever.get_relevant_documents, advanced_retrieval.py lines
173-184: compute the composite key of the document; when the key is
already present add the weight of the current retriever to the stored
score, leaving the stored document and the dict order unchanged, otherwise
append a fresh record with the document and the weight as its score. -/
def insertDoc (acc : List (String × Document × ℚ)) (d : Document) (w : ℚ) :
    List (String × Document × ℚ) :=
  let key := docKey d
  if key ∈ acc.map Prod.fst then
    acc.map fun e => if e.1 = key then (e.1, e.2.1, e.2.2 + w) else e
  else acc ++ [(key, d, w)]

/-- The doc_dict built by EnsembleRetriever (advanced_retrieval.py lines
165-184): iterate over the retrievers in order, pairing each with its
weight, then over the documents each returns in rank order.  A retriever
is represented by the list of documents it returns for the query. -/
def ensembleAccum (sources : List (List Document × ℚ)) :
    List (String × Document × ℚ) :=
  sources.foldl (fun acc s => s.1.foldl (fun a d => insertDoc a d s.2) acc) []

/-- Stable descending insertion by score: the new element goes in front of
the first element whose score is not larger than its own, so elements of
equal score keep their input order.  This models the stable
sorted(..., key = score, reverse) call of line 187: the CPython sort is
stable and the reverse flag preserves the original order of elements that
compare equal. -/
def insertDesc (x : String × Document × ℚ) :
    List (String × Document × ℚ) → List (String × Document × ℚ)
  | [] => [x]
  | y :: ys => if y.2.2 ≤ x.2.2 then x :: y :: ys else y :: insertDesc x ys

/-- Stable sort by score descending, built from insertDesc. -/
def sortDesc : List (String × Document × ℚ) → List (String × Document × ℚ)
  | [] => []
  | x :: xs => insertDesc x (sortDesc xs)

/-- EnsembleRetriever.get_relevant_documents (advanced_retrieval.py lines
152-192): accumulate weighted scores per composite key, sort by score
descending with the stable sort, and return the stored documents only. -/
def ensembleGetRelevantDocuments (sources : List (List Document × ℚ)) :
    List Document :=
  (sortDesc (ensembleAccum sources)).map fun e => e.2.1

/-- Score held in the accumulator for a key, zero when the key is absent. -/
def scoreOrZero : List (String × Document × ℚ) → String → ℚ
  | [], _ => 0
  | e :: acc, k => if e.1 = k then e.2.2 else scoreOrZero acc k

/-- Sum over the sources of the weight of each source whose result list
contains a document with the given composite key. -/
def sourceWeightSum (sources : List (List Document × ℚ)) (k : String) : ℚ :=
  (sources.map fun s => if k ∈ s.1.map docKey then s.2 else 0).sum

/-- First occurrences of a key stream, in order, relative to a set of keys
already seen: the first-seen order of composite keys. -/
def firstOccsFrom (seen : List String) : List String → List String
  | [] => []
  | k :: ks =>
    if k ∈ seen then firstOccsFrom seen ks
    else k :: firstOccsFrom (k :: seen) ks

/-- Inner loop of MultiQueryRetriever.get_relevant_documents
(advanced_retrieval.py lines 233-239): record the document under its
composite key only when the key has not been seen before. -/
def addUnique (acc : List (String × Document)) (d : Document) :
    List (String × Document) :=
  if docKey d ∈ acc.map Prod.fst then acc else acc ++ [(docKey d, d)]

/-- MultiQueryRetriever.get_relevant_documents (advanced_retrieval.py lines
213-244) as a function of the per-query result lists returned by the base
retriever, one list per generated query, in query order. -/
def multiQueryFuse (results : List (List Document)) : List Document :=
  (results.foldl (fun acc docs => docs.foldl addUnique acc) []).map Prod.snd

/-- The full MultiQueryRetriever.get_relevant_documents: generate the
queries from the original query and the completion response, run the base
retriever on each, and fuse. -/
def multiQueryGetRelevantDocuments (base : String → List Document)
    (query llmResult : String) : List Document :=
  multiQueryFuse ((generate_multi_queries query llmResult).map base)

/-- Modelled from the spec (section 4.2, set union): for each query in
order, fetch its passages and append any passage whose composite key has
not yet been seen, preserving first-seen order across queries. -/
def setUnionSpec (results : List (List Document)) : List Document :=
  results.foldl (fun out docs =>
    docs.foldl (fun o d => if docKey d ∈ o.map docKey then o else o ++ [d]) out) []

/-- Error kind of EnsembleRetriever.init: the ValueError raised on a
weight count mismatch; the spec calls it ConfigurationError. -/
inductive ConfigError
  | weightCountMismatch
deriving DecidableEq

/-- The state built by EnsembleRetriever.init. -/
structure EnsembleConfig where
  retrievers : List (String → List Document)
  weights : List ℚ

/-- EnsembleRetriever.init (advanced_retrieval.py lines 131-150): when no
weights are given every retriever gets the default weight of one; when
weights are given and their count differs from the retriever count a
ValueError is raised at once.  The constructor never invokes a retriever,
so no retrieval happens before the check. -/
def ensembleInit (retrievers : List (String → List Document))
    (weights : Option (List ℚ)) : Except ConfigError EnsembleConfig :=
  match weights with
  | none => .ok ⟨retrievers, List.replicate retrievers.length 1⟩
  | some ws =>
    if ws.length ≠ retrievers.length then .error .weightCountMismatch
    else .ok ⟨retrievers, ws⟩

/-- Serialized form of a document, from the serialize helper of
cache_manager.py lines 73-86: the page content and the metadata mapping. -/
structure SerializedDoc where
  page_content : String
  metadata : List (String × String)
deriving DecidableEq

/-- The serialize helper of QueryCache (cache_manager.py lines 73-86). -/
def serializeDocument (d : Document) : SerializedDoc :=
  ⟨d.page_content, d.metadata⟩

/-- The deserialize helper of QueryCache (cache_manager.py lines 88-101). -/
def deserializeDocument (s : SerializedDoc) : Document :=
  ⟨s.page_content, s.metadata⟩

/-- One record of the cache index: original query text and creation time in
seconds, modelling the dict written at cache_manager.py lines 152-155. -/
structure IndexEntry where
  query : String
  timestamp : ℚ
deriving DecidableEq

/-- Payload written to the per-entry cache file, cache_manager.py lines
161-166. -/
structure CacheFileData where
  query : String
  documents : List SerializedDoc
  answer : String
  timestamp : ℚ
deriving DecidableEq

/-- State owned by a QueryCache instance: the in-memory index
self.cache_index, the durable per-entry payload files keyed by file name,
and the durable index file. -/
structure CacheState where
  cache_index : List (String × IndexEntry)
  files : List (String × CacheFileData)
  indexFile : List (String × IndexEntry)
deriving DecidableEq

/-- Modelled digest for the md5 hexdigest of cache_manager.py line 71: the
concrete digest is replaced by an injective deterministic stand-in, since
no claim depends on the value of the digest or on its collisions. -/
def queryHash (query : String) : String :=
  "md5_" ++ query

/-- Error kind named CachePersistFailure by the spec (section 7).  The
model of save_to_cache can signal it through its Except result type; the
code as written never does. -/
inductive CacheError
  | cachePersistFailure
deriving DecidableEq

/-- The private index loader of QueryCache (cache_manager.py lines 34-49):
fileExists tells whether the index file is present, readResult is the
outcome of reading and parsing it, with an error value standing for any
exception.  Every failure is caught and yields the empty index; nothing is
raised. -/
def load_cache_index (fileExists : Bool)
    (readResult : Except String (List (String × IndexEntry))) :
    List (String × IndexEntry) :=
  if fileExists then
    match readResult with
    | .ok idx => idx
    | .error _ => []
  else []

/-- QueryCache.get_from_cache (cache_manager.py lines 103-138).  The flag
readOk models whether opening, reading and parsing the payload file
succeeds; a missing file or a failed read is caught inside the method and
turned into a miss.  The method never mutates the cache, so the returned
state is the input state: the pair result models the Python tuple, with
none standing for the (None, None) return. -/
def get_from_cache (st : CacheState) (readOk : Bool) (now : ℚ)
    (query : String) : Option (List Document × String) × CacheState :=
  let h := queryHash query
  match assocFind st.cache_index h with
  | none => (none, st)
  | some entry =>
    if now - entry.timestamp > 7 * 24 * 60 * 60 then (none, st)
    else
      match (if readOk then assocFind st.files (h ++ ".json") else none) with
      | none => (none, st)
      | some data =>
        (some (data.documents.map deserializeDocument, data.answer), st)

/-- QueryCache.save_to_cache (cache_manager.py lines 140-178).  The flag
payOk models whether the durable write of the payload file succeeds and
idxOk whether the durable write of the index file succeeds.  The in-memory
index is updated before the try block, hence unconditionally.  When the
payload write raises, the exception is caught and printed and the index
file is not written; when the index write inside the private saver raises,
that exception is caught and printed there.  In every case the method
returns normally: the ok constructor is always used, never the error. -/
def save_to_cache (st : CacheState) (payOk idxOk : Bool) (query : String)
    (documents : List Document) (answer : String) (now : ℚ) :
    Except CacheError CacheState :=
  let h := queryHash query
  let index := assocSet st.cache_index h ⟨query, now⟩
  let cacheData : CacheFileData :=
    ⟨query, documents.map serializeDocument, answer, now⟩
  if payOk then
    let files := assocSet st.files (h ++ ".json") cacheData
    let indexFile := if idxOk then index else st.indexFile
    .ok ⟨index, files, indexFile⟩
  else
    .ok ⟨index, st.files, st.indexFile⟩

/-- Truthiness test of the orchestrator in cli.py (query_system lines
232-251 and interactive_mode lines 397-416): the branch condition on the
cached answer is Python truthiness of an optional string, so a present
entry whose stored answer is the empty string takes the miss path.  A true
result means the function prints the cached answer and returns; false
means it falls through to full retrieval and synthesis. -/
def cliUsesCachedAnswer (st : CacheState) (readOk : Bool) (now : ℚ)
    (question : String) : Bool :=
  match (get_from_cache st readOk now question).1 with
  | some (_, ans) => decide (ans ≠ "")
  | none => false

/-- Example passage, content p1, distinct composite key. -/
def exP1 : Document := ⟨"p1", [("source", "s"), ("page", "1")]⟩

/-- Example passage, content p2, distinct composite key. -/
def exP2 : Document := ⟨"p2", [("source", "s"), ("page", "2")]⟩

/-- Example passage, content p3, distinct composite key. -/
def exP3 : Document := ⟨"p3", [("source", "s"), ("page", "3")]⟩

/-- First member of the key-collision pair: the composite string key is the
letter a, then b, then c, then d, joined by underscores. -/
def exCollA : Document := ⟨"a", [("source", "b_c"), ("page", "d")]⟩

/-- Second member of the key-collision pair: same string key as exCollA,
different triple. -/
def exCollB : Document := ⟨"a_b", [("source", "c"), ("page", "d")]⟩

/-- Concrete cache state: the result of storing the question q with one
passage and the answer a at time zero into the empty cache. -/
def exStored : CacheState :=
  ⟨[("md5_q", ⟨"q", 0⟩)],
    [("md5_q.json", ⟨"q", [⟨"p1", [("source", "s"), ("page", "1")]⟩], "a", 0⟩)],
    [("md5_q", ⟨"q", 0⟩)]⟩

/-- Concrete cache state: the result of storing the question q with one
passage and the empty answer at time zero into the empty cache. -/
def exStoredEmptyAnswer : CacheState :=
  ⟨[("md5_q", ⟨"q", 0⟩)],
    [("md5_q.json", ⟨"q", [⟨"p1", [("source", "s"), ("page", "1")]⟩], "", 0⟩)],
    [("md5_q", ⟨"q", 0⟩)]⟩

theorem assocFind_update_self {β : Type} (m : List (String × β)) (k : String) (v : β)
    (h : k ∈ m.map Prod.fst) :
    assocFind (m.map fun e => if e.1 = k then (k, v) else e) k = some v := by
  induction m with
  | nil => simp at h
  | cons e m ih =>
    by_cases he : e.1 = k
    · simp [assocFind, he]
    · have h2 : k ∈ m.map Prod.fst := by
        simp only [List.map_cons, List.mem_cons] at h
        rcases h with h1 | h1
        · exact absurd h1.symm he
        · exact h1
      simpa [assocFind, he] using ih h2

theorem assocFind_append_self {β : Type} (m : List (String × β)) (k : String) (v : β)
    (h : k ∉ m.map Prod.fst) :
    assocFind (m ++ [(k, v)]) k = some v := by
  induction m with
  | nil => simp [assocFind]
  | cons e m ih =>
    have he : ¬ e.1 = k := by
      intro hek
      exact h (by simp [hek])
    have h2 : k ∉ m.map Prod.fst := by
      intro hk
      exact h (by simp [hk])
    simpa [assocFind, he] using ih h2

theorem assocFind_set_self {β : Type} (m : List (String × β)) (k : String) (v : β) :
    assocFind (assocSet m k v) k = some v := by
  unfold assocSet
  by_cases h : k ∈ m.map Prod.fst
  · rw [if_pos h]
    exact assocFind_update_self m k v h
  · rw [if_neg h]
    exact assocFind_append_self m k v h

theorem deserialize_serialize (d : Document) :
    deserializeDocument (serializeDocument d) = d := rfl

theorem deserialize_serialize_comp :
    deserializeDocument ∘ serializeDocument = id := by
  funext d
  rfl

theorem map_deserialize_serialize (docs : List Document) :
    (docs.map serializeDocument).map deserializeDocument = docs := by
  rw [List.map_map, deserialize_serialize_comp, List.map_id]

/-- Helper shared by the round-trip and the cache-hit claims: a successful
store followed by a lookup at the same clock reading returns exactly the
stored passages and answer, and leaves the state alone. -/
theorem save_then_get (st st2 : CacheState) (q : String) (docs : List Document)
    (ans : String) (now : ℚ)
    (h : save_to_cache st true true q docs ans now = Except.ok st2) :
    get_from_cache st2 true now q = (some (docs, ans), st2) := by
  have hst : st2 = ⟨assocSet st.cache_index (queryHash q) ⟨q, now⟩,
      assocSet st.files (queryHash q ++ ".json")
        ⟨q, docs.map serializeDocument, ans, now⟩,
      assocSet st.cache_index (queryHash q) ⟨q, now⟩⟩ := by
    have := h.symm
    simpa [save_to_cache] using this
  subst hst
  have hfind : assocFind (assocSet st.cache_index (queryHash q) ⟨q, now⟩)
      (queryHash q) = some ⟨q, now⟩ := assocFind_set_self _ _ _
  have hfile : assocFind
      (assocSet st.files (queryHash q ++ ".json")
        ⟨q, docs.map serializeDocument, ans, now⟩)
      (queryHash q ++ ".json") = some ⟨q, docs.map serializeDocument, ans, now⟩ :=
    assocFind_set_self _ _ _
  have hmap : List.map (deserializeDocument ∘ serializeDocument) docs = docs := by
    rw [deserialize_serialize_comp, List.map_id]
  simp [get_from_cache, hfind, hfile, hmap]

/-- C3 counterexample: at a concrete input whose durable writes both fail
(both outcome flags false), save_to_cache still returns with the ok
constructor, carrying the updated in-memory index; it does not surface a
CachePersistFailure to its caller, contradicting the claim that a failed
durable write is signalled to the caller of store. -/
theorem save_to_cache_write_failure_returns_ok_cex :
    save_to_cache ⟨[], [], []⟩ false false "q" [exP1] "a" 0 =
      Except.ok ⟨[("md5_q", ⟨"q", 0⟩)], [], []⟩ := by
  simp [save_to_cache, assocSet, queryHash]

/-- C3 amended: an I/O failure while writing a cache entry (payload or
index) is caught inside save_to_cache and logged; the method always
returns normally to its caller (never an error value), and the in-memory
index entry for the question is updated regardless of the write outcome. -/
theorem save_to_cache_never_signals_persist_failure (st : CacheState)
    (payOk idxOk : Bool) (q : String) (docs : List Document) (ans : String)
    (now : ℚ) :
    ∃ st2 : CacheState,
      save_to_cache st payOk idxOk q docs ans now = Except.ok st2
      ∧ st2.cache_index = assocSet st.cache_index (queryHash q) ⟨q, now⟩ := by
  cases payOk
  · exact ⟨_, rfl, rfl⟩
  · exact ⟨_, rfl, rfl⟩

/-- C5: cache round trip: a successful store of a question with its
passages and answer, followed immediately (same clock reading) by a lookup
of the same question, returns exactly the stored passages and answer, in
order, and leaves the cache state unchanged. -/
theorem cache_round_trip (st st2 : CacheState) (q : String)
    (docs : List Document) (ans : String) (now : ℚ)
    (h : save_to_cache st true true q docs ans now = Except.ok st2) :
    get_from_cache st2 true now q = (some (docs, ans), st2) :=
  save_then_get st st2 q docs ans now h

theorem cache_round_trip_witness :
    (save_to_cache ⟨[], [], []⟩ true true "q" [exP1] "a" 0 = Except.ok exStored)
    ∧ get_from_cache exStored true 0 "q" = (some ([exP1], "a"), exStored) := by
  have h : save_to_cache ⟨[], [], []⟩ true true "q" [exP1] "a" 0 =
      Except.ok exStored := by
    simp [save_to_cache, assocSet, queryHash, serializeDocument, exP1, exStored]
  exact ⟨h, cache_round_trip _ _ _ _ _ _ h⟩

/-- C6: lazy expiry: when the index holds an entry for the question whose
age exceeds the seven-day retention window, get_from_cache returns the
absent result and leaves the whole cache state untouched: the index still
holds the key and the payload file is still stored. -/
theorem cache_expiry_lazy (st : CacheState) (readOk : Bool) (now : ℚ)
    (q : String) (entry : IndexEntry)
    (hfound : assocFind st.cache_index (queryHash q) = some entry)
    (hexp : now - entry.timestamp > 7 * 24 * 60 * 60) :
    get_from_cache st readOk now q = (none, st) := by
  simp [get_from_cache, hfound, hexp]

theorem cache_expiry_lazy_witness :
    (assocFind exStored.cache_index (queryHash "q") = some ⟨"q", 0⟩)
    ∧ ((604801 : ℚ) - (⟨"q", 0⟩ : IndexEntry).timestamp > 7 * 24 * 60 * 60)
    ∧ get_from_cache exStored true 604801 "q" = (none, exStored) := by
  have h1 : assocFind exStored.cache_index (queryHash "q") =
      some (⟨"q", 0⟩ : IndexEntry) := by
    simp [exStored, assocFind, queryHash]
  have h2 : (604801 : ℚ) - (⟨"q", 0⟩ : IndexEntry).timestamp
      > 7 * 24 * 60 * 60 := by norm_num
  exact ⟨h1, h2, cache_expiry_lazy exStored true 604801 "q" ⟨"q", 0⟩ h1 h2⟩

/-- C7: every read failure is a miss, never an error: a missing or
unreadable index file loads as the empty index, and a failure to open,
read or parse the payload file during a lookup makes get_from_cache
return the absent result with the state unchanged; the embedding of both
operations is total, so nothing propagates to the caller. -/
theorem cache_read_failure_is_miss :
    (∀ r : Except String (List (String × IndexEntry)),
      load_cache_index false r = [])
    ∧ (∀ e : String, load_cache_index true (Except.error e) = [])
    ∧ (∀ (st : CacheState) (now : ℚ) (q : String),
        get_from_cache st false now q = (none, st)) := by
  refine ⟨fun r => rfl, fun e => rfl, fun st now q => ?_⟩
  cases h : assocFind st.cache_index (queryHash q) with
  | none => simp [get_from_cache, h]
  | some entry =>
    by_cases hexp : now - entry.timestamp > 7 * 24 * 60 * 60
    · simp [get_from_cache, h, hexp]
    · simp [get_from_cache, h, hexp]

/-- C10: the orchestrator tests truthiness of the cached answer string, so
a fresh entry whose stored answer is the empty string is treated as a
miss: the lookup itself returns the entry, yet the cache-hit branch is not
taken and the orchestrator proceeds to full retrieval and synthesis. -/
theorem cli_empty_answer_treated_as_miss (st st2 : CacheState) (q : String)
    (docs : List Document) (now : ℚ)
    (h : save_to_cache st true true q docs "" now = Except.ok st2) :
    (get_from_cache st2 true now q).1 = some (docs, "")
    ∧ cliUsesCachedAnswer st2 true now q = false := by
  have hg := save_then_get st st2 q docs "" now h
  refine ⟨by rw [hg], ?_⟩
  simp [cliUsesCachedAnswer, hg]

theorem cli_empty_answer_treated_as_miss_witness :
    (save_to_cache ⟨[], [], []⟩ true true "q" [exP1] "" 0 =
      Except.ok exStoredEmptyAnswer)
    ∧ (get_from_cache exStoredEmptyAnswer true 0 "q").1 = some ([exP1], "")
    ∧ cliUsesCachedAnswer exStoredEmptyAnswer true 0 "q" = false := by
  have h : save_to_cache ⟨[], [], []⟩ true true "q" [exP1] "" 0 =
      Except.ok exStoredEmptyAnswer := by
    simp [save_to_cache, assocSet, queryHash, serializeDocument, exP1,
      exStoredEmptyAnswer]
  have hc := cli_empty_answer_treated_as_miss _ _ _ _ _ h
  exact ⟨h, hc.1, hc.2⟩

/-- C8: for every non-empty question, generate_multi_queries returns a
non-empty sequence whose first element is the original question verbatim;
the tail is exactly the stripped non-blank lines of the completion
response, in order, so a reformulation textually identical to the question
is kept in the tail and the original is never deduplicated away, and no
blank line survives the filtering. -/
theorem expander_includes_original (query llmResult : String) (h : query ≠ "") :
    generate_multi_queries query llmResult ≠ []
    ∧ (generate_multi_queries query llmResult).head? = some query
    ∧ generate_multi_queries query llmResult
        = query ::
          ((pySplitNl llmResult).map pyStrip).filter (fun q => decide (q ≠ ""))
    ∧ ∀ s ∈ (generate_multi_queries query llmResult).tail, s ≠ "" := by
  refine ⟨by simp [generate_multi_queries], rfl, rfl, ?_⟩
  intro s hs
  simp only [generate_multi_queries, List.tail_cons, List.mem_filter,
    decide_eq_true_eq] at hs
  exact hs.2

theorem expander_includes_original_witness :
    ("q" ≠ "")
    ∧ (generate_multi_queries "q" "a\n\nb " ≠ []
      ∧ (generate_multi_queries "q" "a\n\nb ").head? = some "q"
      ∧ generate_multi_queries "q" "a\n\nb "
          = "q" ::
            ((pySplitNl "a\n\nb ").map pyStrip).filter (fun q => decide (q ≠ ""))
      ∧ ∀ s ∈ (generate_multi_queries "q" "a\n\nb ").tail, s ≠ "") :=
  ⟨by decide, expander_includes_original "q" "a\n\nb " (by decide)⟩

/-- C9: supplying weights whose count differs from the retriever count
makes the ensemble constructor return the configuration error at once,
for every choice of retrievers, hence independently of anything any
retriever would return (no retrieval is performed); with no weights
supplied, every retriever is assigned the default weight one. -/
theorem ensemble_init_weight_check (retrievers : List (String → List Document))
    (ws : List ℚ) (h : ws.length ≠ retrievers.length) :
    ensembleInit retrievers (some ws)
        = Except.error ConfigError.weightCountMismatch
    ∧ ∀ rs : List (String → List Document),
        ensembleInit rs none = Except.ok ⟨rs, List.replicate rs.length 1⟩ :=
  ⟨by simp [ensembleInit, h], fun rs => rfl⟩

theorem ensemble_init_weight_check_witness :
    (([(1 : ℚ), 2]).length
        ≠ ([fun _ => []] : List (String → List Document)).length)
    ∧ (ensembleInit ([fun _ => []] : List (String → List Document))
          (some [(1 : ℚ), 2]) = Except.error ConfigError.weightCountMismatch
      ∧ ∀ rs : List (String → List Document),
          ensembleInit rs none = Except.ok ⟨rs, List.replicate rs.length 1⟩) := by
  have h : (([(1 : ℚ), 2]).length
      ≠ ([fun _ => []] : List (String → List Document)).length) := by
    simp
  exact ⟨h, ensemble_init_weight_check _ _ h⟩

/-- C2 counterexample: two passages whose (content, source, page) triples
differ but whose string-concatenated composite keys coincide are merged by
the fusion: one query returning both passages fuses to the first passage
alone, so it is not true that passages are merged only when their triples
are equal, nor that each distinct triple appears once in the output. -/
theorem composite_key_collision_cex :
    docTriple exCollA ≠ docTriple exCollB
    ∧ docKey exCollA = docKey exCollB
    ∧ multiQueryFuse [[exCollA, exCollB]] = [exCollA] :=
  ⟨by decide, by decide, by decide⟩

theorem keys_addUnique (acc : List (String × Document)) (d : Document) :
    (addUnique acc d).map Prod.fst
      = if docKey d ∈ acc.map Prod.fst then acc.map Prod.fst
        else acc.map Prod.fst ++ [docKey d] := by
  unfold addUnique
  split
  · rfl
  · simp

theorem wellKeyed_addUnique (acc : List (String × Document)) (d : Document)
    (h : ∀ e ∈ acc, e.1 = docKey e.2) :
    ∀ e ∈ addUnique acc d, e.1 = docKey e.2 := by
  intro e he
  unfold addUnique at he
  split at he
  · exact h e he
  · rcases List.mem_append.mp he with h1 | h1
    · exact h e h1
    · simp at h1
      subst h1
      rfl

theorem map_fst_eq_map_docKey_snd (acc : List (String × Document))
    (h : ∀ e ∈ acc, e.1 = docKey e.2) :
    acc.map Prod.fst = (acc.map Prod.snd).map docKey := by
  induction acc with
  | nil => rfl
  | cons e l ih =>
    simp only [List.map_cons]
    rw [h e (List.mem_cons_self e l), ih fun x hx => h x (List.mem_cons_of_mem e hx)]

theorem addUnique_snd (acc : List (String × Document)) (d : Document)
    (h : ∀ e ∈ acc, e.1 = docKey e.2) :
    (addUnique acc d).map Prod.snd
      = if docKey d ∈ (acc.map Prod.snd).map docKey then acc.map Prod.snd
        else acc.map Prod.snd ++ [d] := by
  unfold addUnique
  rw [← map_fst_eq_map_docKey_snd acc h]
  split
  · rfl
  · simp

theorem docsFold_addUnique_snd (docs : List Document)
    (acc : List (String × Document)) (h : ∀ e ∈ acc, e.1 = docKey e.2) :
    (docs.foldl addUnique acc).map Prod.snd
      = docs.foldl
          (fun o d => if docKey d ∈ o.map docKey then o else o ++ [d])
          (acc.map Prod.snd) := by
  induction docs generalizing acc with
  | nil => rfl
  | cons d ds ih =>
    simp only [List.foldl_cons]
    rw [ih (addUnique acc d) (wellKeyed_addUnique acc d h),
      addUnique_snd acc d h]

theorem resultsFold_addUnique_snd (results : List (List Document))
    (acc : List (String × Document)) (h : ∀ e ∈ acc, e.1 = docKey e.2) :
    ((results.foldl (fun a docs => docs.foldl addUnique a) acc).map Prod.snd)
      = results.foldl
          (fun out docs => docs.foldl
            (fun o d => if docKey d ∈ o.map docKey then o else o ++ [d]) out)
          (acc.map Prod.snd) := by
  induction results generalizing acc with
  | nil => rfl
  | cons docs rest ih =>
    simp only [List.foldl_cons]
    have hwk : ∀ e ∈ docs.foldl addUnique acc, e.1 = docKey e.2 := by
      clear ih
      induction docs generalizing acc with
      | nil => exact h
      | cons d ds ihd =>
        simp only [List.foldl_cons]
        exact ihd (addUnique acc d) (wellKeyed_addUnique acc d h)
    rw [ih (docs.foldl addUnique acc) hwk, docsFold_addUnique_snd docs acc h]

/-- C4: set-union fusion preserves first-seen order across queries: the
implementation over the key-indexed dict equals, for every sequence of
per-query results, the specification that appends, query by query in
order, exactly those passages whose composite key has not yet been seen,
in source rank order; hence the full multi-query retrieval equals the
specification applied to the generated queries, and the concrete pair of
result lists from the claim fuses to exactly the three passages in
first-seen order. -/
theorem set_union_order_preserved :
    (∀ results : List (List Document),
      multiQueryFuse results = setUnionSpec results)
    ∧ (∀ (base : String → List Document) (query llmResult : String),
        multiQueryGetRelevantDocuments base query llmResult
          = setUnionSpec ((generate_multi_queries query llmResult).map base))
    ∧ multiQueryFuse [[exP1, exP2], [exP2, exP3]] = [exP1, exP2, exP3] := by
  have hmain : ∀ results : List (List Document),
      multiQueryFuse results = setUnionSpec results := by
    intro results
    unfold multiQueryFuse setUnionSpec
    exact resultsFold_addUnique_snd results [] (by intro e he; simp at he)
  exact ⟨hmain, fun base query llmResult => hmain _, by decide⟩

theorem keys_insertDoc (acc : List (String × Document × ℚ)) (d : Document)
    (w : ℚ) :
    (insertDoc acc d w).map Prod.fst
      = if docKey d ∈ acc.map Prod.fst then acc.map Prod.fst
        else acc.map Prod.fst ++ [docKey d] := by
  by_cases h : docKey d ∈ acc.map Prod.fst
  · rw [if_pos h]
    simp only [insertDoc, if_pos h, List.map_map]
    apply List.map_congr_left
    intro e he
    by_cases hek : e.1 = docKey d
    · simp [hek]
    · simp [hek]
  · rw [if_neg h]
    simp [insertDoc, if_neg h]

theorem scoreOrZero_eq_zero (acc : List (String × Document × ℚ)) (k : String)
    (h : k ∉ acc.map Prod.fst) : scoreOrZero acc k = 0 := by
  induction acc with
  | nil => rfl
  | cons e l ih =>
    have he : ¬ e.1 = k := fun hek => h (by simp [hek])
    have h2 : k ∉ l.map Prod.fst := fun hk => h (by simp [hk])
    simp [scoreOrZero, he, ih h2]

theorem scoreOrZero_update_self (acc : List (String × Document × ℚ))
    (key : String) (w : ℚ) (h : key ∈ acc.map Prod.fst) :
    scoreOrZero
        (acc.map fun e => if e.1 = key then (e.1, e.2.1, e.2.2 + w) else e) key
      = scoreOrZero acc key + w := by
  induction acc with
  | nil => simp at h
  | cons e l ih =>
    by_cases he : e.1 = key
    · simp [scoreOrZero, he]
    · have h2 : key ∈ l.map Prod.fst := by
        simp only [List.map_cons, List.mem_cons] at h
        rcases h with h1 | h1
        · exact absurd h1.symm he
        · exact h1
      simp [scoreOrZero, he, ih h2]

theorem scoreOrZero_update_other (acc : List (String × Document × ℚ))
    (key k : String) (w : ℚ) (hk : k ≠ key) :
    scoreOrZero
        (acc.map fun e => if e.1 = key then (e.1, e.2.1, e.2.2 + w) else e) k
      = scoreOrZero acc k := by
  induction acc with
  | nil => rfl
  | cons e l ih =>
    by_cases he : e.1 = key
    · have hkk : ¬ key = k := fun hh => hk hh.symm
      simp [scoreOrZero, he, hkk, ih]
    · by_cases hek : e.1 = k
      · simp [scoreOrZero, he, hek, hk]
      · simp [scoreOrZero, he, hek, hk, ih]

theorem scoreOrZero_append_new (acc : List (String × Document × ℚ))
    (key k : String) (d : Document) (w : ℚ)
    (hnew : key ∉ acc.map Prod.fst) :
    scoreOrZero (acc ++ [(key, d, w)]) k
      = scoreOrZero acc k + if k = key then w else 0 := by
  induction acc with
  | nil =>
    by_cases hk : k = key
    · simp [scoreOrZero, hk]
    · have hk2 : ¬ key = k := fun hh => hk hh.symm
      simp [scoreOrZero, hk, hk2]
  | cons e l ih =>
    have h2 : key ∉ l.map Prod.fst := fun hk => hnew (by simp [hk])
    by_cases he : e.1 = k
    · have hk : ¬ k = key := by
        rintro rfl
        exact hnew (by simp [he])
      simp [scoreOrZero, he, hk]
    · simp [scoreOrZero, he, ih h2]

theorem scoreOrZero_insertDoc (acc : List (String × Document × ℚ))
    (d : Document) (w : ℚ) (k : String) :
    scoreOrZero (insertDoc acc d w) k
      = scoreOrZero acc k + if k = docKey d then w else 0 := by
  by_cases h : docKey d ∈ acc.map Prod.fst
  · simp only [insertDoc, if_pos h]
    by_cases hk : k = docKey d
    · rw [hk, scoreOrZero_update_self acc (docKey d) w h]
      simp
    · rw [scoreOrZero_update_other acc (docKey d) k w hk]
      simp [hk]
  · simp only [insertDoc, if_neg h]
    exact scoreOrZero_append_new acc (docKey d) k d w h

theorem scoreOrZero_docsFold (docs : List Document) (w : ℚ)
    (acc : List (String × Document × ℚ)) (k : String)
    (hnd : (docs.map docKey).Nodup) :
    scoreOrZero (docs.foldl (fun a d => insertDoc a d w) acc) k
      = scoreOrZero acc k + if k ∈ docs.map docKey then w else 0 := by
  induction docs generalizing acc with
  | nil => simp
  | cons d ds ih =>
    simp only [List.map_cons, List.nodup_cons] at hnd
    simp only [List.foldl_cons]
    rw [ih (insertDoc acc d w) hnd.2, scoreOrZero_insertDoc]
    by_cases hk : k = docKey d
    · subst hk
      simp [hnd.1]
    · simp [hk, List.mem_cons, add_assoc]

theorem scoreOrZero_sourcesFold (sources : List (List Document × ℚ))
    (acc : List (String × Document × ℚ)) (k : String)
    (hnd : ∀ s ∈ sources, (s.1.map docKey).Nodup) :
    scoreOrZero
        (sources.foldl
          (fun a s => s.1.foldl (fun a2 d => insertDoc a2 d s.2) a) acc) k
      = scoreOrZero acc k + sourceWeightSum sources k := by
  induction sources generalizing acc with
  | nil => simp [sourceWeightSum]
  | cons s rest ih =>
    simp only [List.foldl_cons]
    rw [ih _ fun t ht => hnd t (List.mem_cons_of_mem s ht),
      scoreOrZero_docsFold s.1 s.2 acc k (hnd s (List.mem_cons_self s rest))]
    simp only [sourceWeightSum, List.map_cons, List.sum_cons]
    ring

theorem scoreOrZero_ensembleAccum (sources : List (List Document × ℚ))
    (k : String) (hnd : ∀ s ∈ sources, (s.1.map docKey).Nodup) :
    scoreOrZero (ensembleAccum sources) k = sourceWeightSum sources k := by
  unfold ensembleAccum
  rw [scoreOrZero_sourcesFold sources [] k hnd]
  simp [scoreOrZero]

theorem mem_firstOccsFrom (x : String) (seen ks : List String) :
    x ∈ firstOccsFrom seen ks ↔ x ∈ ks ∧ x ∉ seen := by
  induction ks generalizing seen with
  | nil => simp [firstOccsFrom]
  | cons k ks ih =>
    by_cases hk : k ∈ seen
    · simp only [firstOccsFrom, if_pos hk, ih, List.mem_cons]
      constructor
      · exact fun h => ⟨Or.inr h.1, h.2⟩
      · rintro ⟨h1 | h1, h2⟩
        · exact absurd (h1 ▸ hk) h2
        · exact ⟨h1, h2⟩
    · simp only [firstOccsFrom, if_neg hk, List.mem_cons, ih]
      by_cases hxk : x = k
      · subst hxk
        tauto
      · tauto

theorem firstOccsFrom_congr (s1 s2 ks : List String)
    (h : ∀ x, x ∈ s1 ↔ x ∈ s2) :
    firstOccsFrom s1 ks = firstOccsFrom s2 ks := by
  induction ks generalizing s1 s2 with
  | nil => rfl
  | cons k ks ih =>
    by_cases hk : k ∈ s1
    · simp only [firstOccsFrom, if_pos hk, if_pos ((h k).mp hk)]
      exact ih s1 s2 h
    · simp only [firstOccsFrom, if_neg hk, if_neg fun hh => hk ((h k).mpr hh)]
      refine congrArg (k :: ·) (ih (k :: s1) (k :: s2) fun x => ?_)
      simp [h x]

theorem firstOccsFrom_append (seen xs ys : List String) :
    firstOccsFrom seen (xs ++ ys)
      = firstOccsFrom seen xs ++ firstOccsFrom (xs ++ seen) ys := by
  induction xs generalizing seen with
  | nil => simp [firstOccsFrom]
  | cons x xs ih =>
    by_cases hx : x ∈ seen
    · simp only [List.cons_append, firstOccsFrom, if_pos hx, List.append_eq]
      rw [ih seen]
      congr 1
      refine firstOccsFrom_congr _ _ _ fun z => ?_
      simp only [List.mem_append, List.cons_append, List.mem_cons]
      aesop
    · simp only [List.cons_append, firstOccsFrom, if_neg hx, List.append_eq]
      rw [ih (x :: seen)]
      refine congrArg (x :: ·) (congrArg _ ?_)
      refine firstOccsFrom_congr _ _ _ fun z => ?_
      simp only [List.mem_append, List.mem_cons, List.cons_append]
      aesop

theorem keys_docsFold (docs : List Document) (w : ℚ)
    (acc : List (String × Document × ℚ)) :
    (docs.foldl (fun a d => insertDoc a d w) acc).map Prod.fst
      = acc.map Prod.fst
        ++ firstOccsFrom (acc.map Prod.fst) (docs.map docKey) := by
  induction docs generalizing acc with
  | nil => simp [firstOccsFrom]
  | cons d ds ih =>
    simp only [List.foldl_cons, List.map_cons]
    rw [ih (insertDoc acc d w), keys_insertDoc]
    by_cases hd : docKey d ∈ acc.map Prod.fst
    · rw [if_pos hd]
      simp only [firstOccsFrom, if_pos hd]
    · rw [if_neg hd]
      simp only [firstOccsFrom, if_neg hd, List.append_assoc,
        List.singleton_append]
      congr 2
      refine firstOccsFrom_congr _ _ _ fun z => ?_
      simp only [List.mem_append, List.mem_cons, List.mem_singleton]
      aesop

theorem keys_sourcesFold (sources : List (List Document × ℚ))
    (acc : List (String × Document × ℚ)) :
    ((sources.foldl
        (fun a s => s.1.foldl (fun a2 d => insertDoc a2 d s.2) a) acc).map
      Prod.fst)
      = acc.map Prod.fst
        ++ firstOccsFrom (acc.map Prod.fst)
            (sources.flatMap fun s => s.1.map docKey) := by
  induction sources generalizing acc with
  | nil => simp [firstOccsFrom]
  | cons s rest ih =>
    simp only [List.foldl_cons, List.flatMap_cons]
    rw [ih _, keys_docsFold, firstOccsFrom_append, List.append_assoc]
    congr 2
    refine firstOccsFrom_congr _ _ _ fun z => ?_
    simp only [List.mem_append, mem_firstOccsFrom]
    tauto

theorem keys_ensembleAccum (sources : List (List Document × ℚ)) :
    (ensembleAccum sources).map Prod.fst
      = firstOccsFrom [] (sources.flatMap fun s => s.1.map docKey) := by
  unfold ensembleAccum
  rw [keys_sourcesFold sources []]
  rfl

theorem insertDoc_pos (acc : List (String × Document × ℚ)) (d : Document)
    (w : ℚ) (h : docKey d ∈ acc.map Prod.fst) :
    insertDoc acc d w
      = acc.map fun e => if e.1 = docKey d then (e.1, e.2.1, e.2.2 + w) else e := by
  simp only [insertDoc, if_pos h]

theorem insertDoc_neg (acc : List (String × Document × ℚ)) (d : Document)
    (w : ℚ) (h : docKey d ∉ acc.map Prod.fst) :
    insertDoc acc d w = acc ++ [(docKey d, d, w)] := by
  simp only [insertDoc, if_neg h]

theorem nodup_keys_insertDoc (acc : List (String × Document × ℚ))
    (d : Document) (w : ℚ) (h : (acc.map Prod.fst).Nodup) :
    ((insertDoc acc d w).map Prod.fst).Nodup := by
  rw [keys_insertDoc]
  by_cases hd : docKey d ∈ acc.map Prod.fst
  · rw [if_pos hd]
    exact h
  · rw [if_neg hd]
    simp [List.nodup_append, h, hd]

theorem nodup_keys_docsFold (docs : List Document) (w : ℚ)
    (acc : List (String × Document × ℚ)) (h : (acc.map Prod.fst).Nodup) :
    ((docs.foldl (fun a d => insertDoc a d w) acc).map Prod.fst).Nodup := by
  induction docs generalizing acc with
  | nil => exact h
  | cons d ds ih =>
    simp only [List.foldl_cons]
    exact ih (insertDoc acc d w) (nodup_keys_insertDoc acc d w h)

theorem nodup_keys_ensembleAccum (sources : List (List Document × ℚ)) :
    ((ensembleAccum sources).map Prod.fst).Nodup := by
  unfold ensembleAccum
  suffices hgen : ∀ (ss : List (List Document × ℚ))
      (acc : List (String × Document × ℚ)), (acc.map Prod.fst).Nodup →
      ((ss.foldl
        (fun a s => s.1.foldl (fun a2 d => insertDoc a2 d s.2) a) acc).map
          Prod.fst).Nodup by
    exact hgen sources [] (by simp)
  intro ss
  induction ss with
  | nil => exact fun acc h => h
  | cons s rest ih =>
    intro acc h
    simp only [List.foldl_cons]
    exact ih _ (nodup_keys_docsFold s.1 s.2 acc h)

theorem wellKeyed_insertDoc (acc : List (String × Document × ℚ))
    (d : Document) (w : ℚ) (h : ∀ e ∈ acc, e.1 = docKey e.2.1) :
    ∀ e ∈ insertDoc acc d w, e.1 = docKey e.2.1 := by
  intro e he
  by_cases hd : docKey d ∈ acc.map Prod.fst
  · rw [insertDoc_pos acc d w hd] at he
    rcases List.mem_map.mp he with ⟨f, hf, hfe⟩
    by_cases hfk : f.1 = docKey d
    · rw [if_pos hfk] at hfe
      rw [← hfe]
      exact h f hf
    · rw [if_neg hfk] at hfe
      rw [← hfe]
      exact h f hf
  · rw [insertDoc_neg acc d w hd] at he
    rcases List.mem_append.mp he with h1 | h1
    · exact h e h1
    · rw [List.mem_singleton.mp h1]

theorem wellKeyed_docsFold (docs : List Document) (w : ℚ)
    (acc : List (String × Document × ℚ))
    (h : ∀ e ∈ acc, e.1 = docKey e.2.1) :
    ∀ e ∈ docs.foldl (fun a d => insertDoc a d w) acc, e.1 = docKey e.2.1 := by
  induction docs generalizing acc with
  | nil => exact h
  | cons d ds ih =>
    simp only [List.foldl_cons]
    exact ih _ (wellKeyed_insertDoc acc d w h)

theorem wellKeyed_ensembleAccum (sources : List (List Document × ℚ)) :
    ∀ e ∈ ensembleAccum sources, e.1 = docKey e.2.1 := by
  unfold ensembleAccum
  suffices hgen : ∀ (ss : List (List Document × ℚ))
      (acc : List (String × Document × ℚ)),
      (∀ e ∈ acc, e.1 = docKey e.2.1) →
      ∀ e ∈ ss.foldl
        (fun a s => s.1.foldl (fun a2 d => insertDoc a2 d s.2) a) acc,
        e.1 = docKey e.2.1 by
    exact hgen sources [] (by intro e he; simp at he)
  intro ss
  induction ss with
  | nil => exact fun acc h => h
  | cons s rest ih =>
    intro acc h
    simp only [List.foldl_cons]
    exact ih _ (wellKeyed_docsFold s.1 s.2 acc h)

theorem mem_keys_insertDoc_self (acc : List (String × Document × ℚ))
    (d : Document) (w : ℚ) :
    docKey d ∈ (insertDoc acc d w).map Prod.fst := by
  rw [keys_insertDoc]
  by_cases hd : docKey d ∈ acc.map Prod.fst
  · rw [if_pos hd]
    exact hd
  · rw [if_neg hd]
    simp

theorem mem_keys_insertDoc_mono (acc : List (String × Document × ℚ))
    (d : Document) (w : ℚ) (k : String) (h : k ∈ acc.map Prod.fst) :
    k ∈ (insertDoc acc d w).map Prod.fst := by
  rw [keys_insertDoc]
  by_cases hd : docKey d ∈ acc.map Prod.fst
  · rw [if_pos hd]
    exact h
  · rw [if_neg hd]
    exact List.mem_append_left _ h

theorem mem_keys_docsFold_mono (docs : List Document) (w : ℚ)
    (acc : List (String × Document × ℚ)) (k : String)
    (h : k ∈ acc.map Prod.fst) :
    k ∈ (docs.foldl (fun a d => insertDoc a d w) acc).map Prod.fst := by
  induction docs generalizing acc with
  | nil => exact h
  | cons d ds ih =>
    simp only [List.foldl_cons]
    exact ih _ (mem_keys_insertDoc_mono acc d w k h)

theorem mem_keys_docsFold_self (docs : List Document) (w : ℚ)
    (acc : List (String × Document × ℚ)) (d : Document) (hd : d ∈ docs) :
    docKey d ∈ (docs.foldl (fun a d2 => insertDoc a d2 w) acc).map Prod.fst := by
  induction docs generalizing acc with
  | nil => simp at hd
  | cons d2 ds ih =>
    simp only [List.foldl_cons]
    rcases List.mem_cons.mp hd with h1 | h1
    · subst h1
      exact mem_keys_docsFold_mono ds w _ _ (mem_keys_insertDoc_self acc d w)
    · exact ih (insertDoc acc d2 w) h1

theorem mem_keys_sourcesFold_mono (sources : List (List Document × ℚ))
    (acc : List (String × Document × ℚ)) (k : String)
    (h : k ∈ acc.map Prod.fst) :
    k ∈ ((sources.foldl
      (fun a s => s.1.foldl (fun a2 d => insertDoc a2 d s.2) a) acc).map
        Prod.fst) := by
  induction sources generalizing acc with
  | nil => exact h
  | cons s rest ih =>
    simp only [List.foldl_cons]
    exact ih _ (mem_keys_docsFold_mono s.1 s.2 acc k h)

theorem mem_keys_ensembleAccum (sources : List (List Document × ℚ))
    (s : List Document × ℚ) (hs : s ∈ sources) (d : Document) (hd : d ∈ s.1) :
    docKey d ∈ (ensembleAccum sources).map Prod.fst := by
  unfold ensembleAccum
  suffices hgen : ∀ (ss : List (List Document × ℚ))
      (acc : List (String × Document × ℚ)), s ∈ ss →
      docKey d ∈ ((ss.foldl
        (fun a t => t.1.foldl (fun a2 d2 => insertDoc a2 d2 t.2) a) acc).map
          Prod.fst) by
    exact hgen sources [] hs
  intro ss
  induction ss with
  | nil => exact fun acc h => absurd h (List.not_mem_nil s)
  | cons t rest ih =>
    intro acc hmem
    simp only [List.foldl_cons]
    rcases List.mem_cons.mp hmem with h1 | h1
    · subst h1
      exact mem_keys_sourcesFold_mono rest _ _
        (mem_keys_docsFold_self s.1 s.2 acc d hd)
    · exact ih _ h1

theorem insertDesc_perm (x : String × Document × ℚ)
    (l : List (String × Document × ℚ)) : (insertDesc x l).Perm (x :: l) := by
  induction l with
  | nil => exact List.Perm.refl _
  | cons y ys ih =>
    simp only [insertDesc]
    by_cases hc : y.2.2 ≤ x.2.2
    · rw [if_pos hc]
    · rw [if_neg hc]
      exact (ih.cons y).trans (List.Perm.swap x y ys)

theorem sortDesc_perm (l : List (String × Document × ℚ)) :
    (sortDesc l).Perm l := by
  induction l with
  | nil => exact List.Perm.refl _
  | cons x xs ih =>
    exact (insertDesc_perm x (sortDesc xs)).trans (ih.cons x)

theorem mem_insertDesc (x z : String × Document × ℚ)
    (l : List (String × Document × ℚ)) :
    z ∈ insertDesc x l ↔ z = x ∨ z ∈ l :=
  ((insertDesc_perm x l).mem_iff).trans List.mem_cons

theorem insertDesc_sorted (x : String × Document × ℚ)
    (l : List (String × Document × ℚ))
    (h : l.Pairwise fun a b => b.2.2 ≤ a.2.2) :
    (insertDesc x l).Pairwise fun a b => b.2.2 ≤ a.2.2 := by
  induction l with
  | nil => simp [insertDesc]
  | cons y ys ih =>
    rcases List.pairwise_cons.mp h with ⟨hy, hys⟩
    simp only [insertDesc]
    by_cases hc : y.2.2 ≤ x.2.2
    · rw [if_pos hc]
      refine List.pairwise_cons.mpr ⟨fun z hz => ?_, h⟩
      rcases List.mem_cons.mp hz with rfl | hz
      · exact hc
      · exact le_trans (hy z hz) hc
    · rw [if_neg hc]
      refine List.pairwise_cons.mpr ⟨fun z hz => ?_, ih hys⟩
      rcases (mem_insertDesc x z ys).mp hz with rfl | hz
      · exact le_of_lt (not_le.mp hc)
      · exact hy z hz

theorem sortDesc_sorted (l : List (String × Document × ℚ)) :
    (sortDesc l).Pairwise fun a b => b.2.2 ≤ a.2.2 := by
  induction l with
  | nil => exact List.Pairwise.nil
  | cons x xs ih => exact insertDesc_sorted x (sortDesc xs) ih

theorem filter_insertDesc_eq_score (x : String × Document × ℚ)
    (l : List (String × Document × ℚ)) (s : ℚ) (hx : x.2.2 = s) :
    (insertDesc x l).filter (fun e => decide (e.2.2 = s))
      = x :: l.filter (fun e => decide (e.2.2 = s)) := by
  induction l with
  | nil => simp [insertDesc, hx]
  | cons y ys ih =>
    simp only [insertDesc]
    by_cases hc : y.2.2 ≤ x.2.2
    · rw [if_pos hc]
      simp [List.filter_cons, hx]
    · rw [if_neg hc]
      have hy : ¬ y.2.2 = s := by
        rw [← hx]
        intro hh
        exact hc (le_of_eq hh)
      simp [List.filter_cons, hy, ih]
  
theorem filter_insertDesc_ne_score (x : String × Document × ℚ)
    (l : List (String × Document × ℚ)) (s : ℚ) (hx : ¬ x.2.2 = s) :
    (insertDesc x l).filter (fun e => decide (e.2.2 = s))
      = l.filter (fun e => decide (e.2.2 = s)) := by
  induction l with
  | nil => simp [insertDesc, hx]
  | cons y ys ih =>
    simp only [insertDesc]
    by_cases hc : y.2.2 ≤ x.2.2
    · rw [if_pos hc]
      simp [List.filter_cons, hx]
    · rw [if_neg hc]
      simp [List.filter_cons, ih]

theorem filter_sortDesc (l : List (String × Document × ℚ)) (s : ℚ) :
    (sortDesc l).filter (fun e => decide (e.2.2 = s))
      = l.filter (fun e => decide (e.2.2 = s)) := by
  induction l with
  | nil => rfl
  | cons x xs ih =>
    simp only [sortDesc]
    by_cases hx : x.2.2 = s
    · rw [filter_insertDesc_eq_score x _ s hx, ih]
      simp [List.filter_cons, hx]
    · rw [filter_insertDesc_ne_score x _ s hx, ih]
      simp [List.filter_cons, hx]

theorem nodup_keys_addUnique (acc : List (String × Document)) (d : Document)
    (h : (acc.map Prod.fst).Nodup) : ((addUnique acc d).map Prod.fst).Nodup := by
  rw [keys_addUnique]
  by_cases hd : docKey d ∈ acc.map Prod.fst
  · rw [if_pos hd]
    exact h
  · rw [if_neg hd]
    simp [List.nodup_append, h, hd]

theorem mem_keys_addUnique_self (acc : List (String × Document))
    (d : Document) : docKey d ∈ (addUnique acc d).map Prod.fst := by
  rw [keys_addUnique]
  by_cases hd : docKey d ∈ acc.map Prod.fst
  · rw [if_pos hd]
    exact hd
  · rw [if_neg hd]
    simp

theorem mem_keys_addUnique_mono (acc : List (String × Document))
    (d : Document) (k : String) (h : k ∈ acc.map Prod.fst) :
    k ∈ (addUnique acc d).map Prod.fst := by
  rw [keys_addUnique]
  by_cases hd : docKey d ∈ acc.map Prod.fst
  · rw [if_pos hd]
    exact h
  · rw [if_neg hd]
    exact List.mem_append_left _ h

theorem nodup_keys_mqDocsFold (docs : List Document)
    (acc : List (String × Document)) (h : (acc.map Prod.fst).Nodup) :
    ((docs.foldl addUnique acc).map Prod.fst).Nodup := by
  induction docs generalizing acc with
  | nil => exact h
  | cons d ds ih =>
    simp only [List.foldl_cons]
    exact ih _ (nodup_keys_addUnique acc d h)

theorem nodup_keys_mqResultsFold (results : List (List Document))
    (acc : List (String × Document)) (h : (acc.map Prod.fst).Nodup) :
    ((results.foldl (fun a docs => docs.foldl addUnique a) acc).map
      Prod.fst).Nodup := by
  induction results generalizing acc with
  | nil => exact h
  | cons docs rest ih =>
    simp only [List.foldl_cons]
    exact ih _ (nodup_keys_mqDocsFold docs acc h)

theorem wellKeyed_mqDocsFold (docs : List Document)
    (acc : List (String × Document)) (h : ∀ e ∈ acc, e.1 = docKey e.2) :
    ∀ e ∈ docs.foldl addUnique acc, e.1 = docKey e.2 := by
  induction docs generalizing acc with
  | nil => exact h
  | cons d ds ih =>
    simp only [List.foldl_cons]
    exact ih _ (wellKeyed_addUnique acc d h)

theorem wellKeyed_mqResultsFold (results : List (List Document))
    (acc : List (String × Document)) (h : ∀ e ∈ acc, e.1 = docKey e.2) :
    ∀ e ∈ results.foldl (fun a docs => docs.foldl addUnique a) acc,
      e.1 = docKey e.2 := by
  induction results generalizing acc with
  | nil => exact h
  | cons docs rest ih =>
    simp only [List.foldl_cons]
    exact ih _ (wellKeyed_mqDocsFold docs acc h)

theorem mem_keys_mqDocsFold_mono (docs : List Document)
    (acc : List (String × Document)) (k : String) (h : k ∈ acc.map Prod.fst) :
    k ∈ (docs.foldl addUnique acc).map Prod.fst := by
  induction docs generalizing acc with
  | nil => exact h
  | cons d ds ih =>
    simp only [List.foldl_cons]
    exact ih _ (mem_keys_addUnique_mono acc d k h)

theorem mem_keys_mqDocsFold_self (docs : List Document)
    (acc : List (String × Document)) (d : Document) (hd : d ∈ docs) :
    docKey d ∈ (docs.foldl addUnique acc).map Prod.fst := by
  induction docs generalizing acc with
  | nil => simp at hd
  | cons d2 ds ih =>
    simp only [List.foldl_cons]
    rcases List.mem_cons.mp hd with h1 | h1
    · subst h1
      exact mem_keys_mqDocsFold_mono ds _ _ (mem_keys_addUnique_self acc d)
    · exact ih (addUnique acc d2) h1

theorem mem_keys_mqResultsFold_mono (results : List (List Document))
    (acc : List (String × Document)) (k : String) (h : k ∈ acc.map Prod.fst) :
    k ∈ (results.foldl (fun a docs => docs.foldl addUnique a) acc).map
      Prod.fst := by
  induction results generalizing acc with
  | nil => exact h
  | cons docs rest ih =>
    simp only [List.foldl_cons]
    exact ih _ (mem_keys_mqDocsFold_mono docs acc k h)

theorem mem_keys_mqResultsFold_self (results : List (List Document))
    (acc : List (String × Document)) (docs : List Document)
    (hdocs : docs ∈ results) (d : Document) (hd : d ∈ docs) :
    docKey d ∈ (results.foldl (fun a ds => ds.foldl addUnique a) acc).map
      Prod.fst := by
  induction results generalizing acc with
  | nil => simp at hdocs
  | cons ds2 rest ih =>
    simp only [List.foldl_cons]
    rcases List.mem_cons.mp hdocs with h1 | h1
    · subst h1
      exact mem_keys_mqResultsFold_mono rest _ _
        (mem_keys_mqDocsFold_self docs acc d hd)
    · exact ih (ds2.foldl addUnique acc) h1

/-- C2 amended: each fusion policy emits each distinct string-concatenated
composite key exactly once (two passages are merged exactly when the
string content, then source, then page joined by underscores coincide, a
coarser relation than equality of the triples because the concatenation is
not injective): the fused outputs carry pairwise distinct string keys, and
the key of every input passage appears among them. -/
theorem dedup_emits_each_string_key_once (sources : List (List Document × ℚ))
    (results : List (List Document)) :
    ((ensembleGetRelevantDocuments sources).map docKey).Nodup
    ∧ (∀ s ∈ sources, ∀ d ∈ s.1,
        docKey d ∈ (ensembleGetRelevantDocuments sources).map docKey)
    ∧ ((multiQueryFuse results).map docKey).Nodup
    ∧ (∀ docs ∈ results, ∀ d ∈ docs,
        docKey d ∈ (multiQueryFuse results).map docKey) := by
  have hperm :
      ((sortDesc (ensembleAccum sources)).map Prod.fst).Perm
        ((ensembleAccum sources).map Prod.fst) :=
    (sortDesc_perm (ensembleAccum sources)).map Prod.fst
  have hmapkey : (ensembleGetRelevantDocuments sources).map docKey
      = (sortDesc (ensembleAccum sources)).map Prod.fst := by
    unfold ensembleGetRelevantDocuments
    rw [List.map_map]
    refine List.map_congr_left fun e he => ?_
    have he2 : e ∈ ensembleAccum sources :=
      (sortDesc_perm (ensembleAccum sources)).mem_iff.mp he
    exact (wellKeyed_ensembleAccum sources e he2).symm
  have hmqkey : (multiQueryFuse results).map docKey
      = (results.foldl (fun a docs => docs.foldl addUnique a) []).map
          Prod.fst := by
    unfold multiQueryFuse
    rw [List.map_map]
    refine List.map_congr_left fun e he => ?_
    exact (wellKeyed_mqResultsFold results []
      (by intro e2 he2; simp at he2) e he).symm
  refine ⟨?_, ?_, ?_, ?_⟩
  · rw [hmapkey]
    exact hperm.nodup_iff.mpr (nodup_keys_ensembleAccum sources)
  · intro s hs d hd
    rw [hmapkey]
    exact hperm.mem_iff.mpr (mem_keys_ensembleAccum sources s hs d hd)
  · rw [hmqkey]
    exact nodup_keys_mqResultsFold results [] (by simp)
  · intro docs hdocs d hd
    rw [hmqkey]
    exact mem_keys_mqResultsFold_self results [] docs hdocs d hd

/-- C1: weighted-union fusion: the fused output is the stable descending
sort of the accumulator projected to documents; for every composite key
the accumulated score is the sum of the weights of the sources whose
results contain that key (each source contributing its weight once, under
the hypothesis that no single source lists one key twice); the output is
sorted by accumulated score descending; entries of any fixed score appear
in the output in exactly their accumulator order, and the accumulator
keys are in first-seen order over the key stream taken in source
iteration order then intra-source rank; finally, the concrete instance of
the claim (source A of weight two returning p1 then p2, iterated before
source B of weight one returning p2 then p3) outputs p2, then p1, then
p3. -/
theorem weighted_union_fusion (sources : List (List Document × ℚ))
    (hnd : ∀ s ∈ sources, (s.1.map docKey).Nodup) :
    ensembleGetRelevantDocuments sources
        = (sortDesc (ensembleAccum sources)).map (fun e => e.2.1)
    ∧ (∀ k, scoreOrZero (ensembleAccum sources) k = sourceWeightSum sources k)
    ∧ (sortDesc (ensembleAccum sources)).Pairwise (fun a b => b.2.2 ≤ a.2.2)
    ∧ (∀ s : ℚ,
        (sortDesc (ensembleAccum sources)).filter
            (fun e => decide (e.2.2 = s))
          = (ensembleAccum sources).filter (fun e => decide (e.2.2 = s)))
    ∧ (ensembleAccum sources).map Prod.fst
        = firstOccsFrom [] (sources.flatMap fun s => s.1.map docKey)
    ∧ ensembleGetRelevantDocuments [([exP1, exP2], 2), ([exP2, exP3], 1)]
        = [exP2, exP1, exP3] := by
  refine ⟨rfl, fun k => scoreOrZero_ensembleAccum sources k hnd,
    sortDesc_sorted _, fun s => filter_sortDesc _ s,
    keys_ensembleAccum sources, ?_⟩
  simp [ensembleGetRelevantDocuments, ensembleAccum, insertDoc, sortDesc,
    insertDesc, docKey, metadataGet, exP1, exP2, exP3,
    (by norm_num : (2 : ℚ) + 1 = 3), (by norm_num : ¬ (3 : ℚ) ≤ 2),
    (by norm_num : (1 : ℚ) ≤ 2)]

theorem weighted_union_fusion_witness :
    (∀ s ∈ [([exP1, exP2], (2 : ℚ)), ([exP2, exP3], 1)],
      (s.1.map docKey).Nodup)
    ∧ (ensembleGetRelevantDocuments [([exP1, exP2], 2), ([exP2, exP3], 1)]
          = (sortDesc
              (ensembleAccum [([exP1, exP2], 2), ([exP2, exP3], 1)])).map
                (fun e => e.2.1)
      ∧ (∀ k, scoreOrZero (ensembleAccum [([exP1, exP2], 2), ([exP2, exP3], 1)]) k
            = sourceWeightSum [([exP1, exP2], 2), ([exP2, exP3], 1)] k)
      ∧ (sortDesc (ensembleAccum [([exP1, exP2], 2), ([exP2, exP3], 1)])).Pairwise
            (fun a b => b.2.2 ≤ a.2.2)
      ∧ (∀ s : ℚ,
          (sortDesc (ensembleAccum [([exP1, exP2], 2), ([exP2, exP3], 1)])).filter
              (fun e => decide (e.2.2 = s))
            = (ensembleAccum [([exP1, exP2], 2), ([exP2, exP3], 1)]).filter
                (fun e => decide (e.2.2 = s)))
      ∧ (ensembleAccum [([exP1, exP2], 2), ([exP2, exP3], 1)]).map Prod.fst
          = firstOccsFrom []
              ([([exP1, exP2], (2 : ℚ)), ([exP2, exP3], 1)].flatMap
                fun s => s.1.map docKey)
      ∧ ensembleGetRelevantDocuments [([exP1, exP2], 2), ([exP2, exP3], 1)]
          = [exP2, exP1, exP3]) := by
  have h : ∀ s ∈ [([exP1, exP2], (2 : ℚ)), ([exP2, exP3], 1)],
      (s.1.map docKey).Nodup := by decide
  exact ⟨h, weighted_union_fusion _ h⟩
